import Mathlib

/-!
Verification of the session/cookie layer of the notebooklm-mcp-server
repository.

The development shallowly embeds the TypeScript source:

* JS strings are modelled as `List Char` (wrapped into Lean `String` at the
  claim boundary), and the JS string operations used by the source
  (`split('; ')`, `join('; ')`, `indexOf('=')`/`substring`, `includes`)
  are given char-level executable definitions with the same semantics.
* `AuthManager.runAuthentication` (cookie extraction, Map-based last-wins
  deduplication, REQUIRED-cookie check, persistence of
  `{cookies, updatedAt}`) is embedded from `src/auth.ts`.
* The `examples/fix-cookies.ts` first-wins dedup utility is embedded at
  char level.
* The login-completion `Promise.race` with its 300000 ms timeouts is
  modelled by signal firing times.
* The session bootstrap (`client.init`) is not part of the sources at
  hand — only its callers and diagnostics are — so it is modelled from
  the spec (see `bootstrap`).
-/

namespace NLM

/-- JS `Array.prototype.join('; ')` at char level, as used by
`runAuthentication` and `fix-cookies.ts` to assemble the cookie string. -/
def joinSemi : List (List Char) → List Char
  | [] => []
  | [x] => x
  | x :: xs => x ++ ';' :: ' ' :: joinSemi xs

/-- JS `String.prototype.split('; ')` at char level: leftmost-first scan for
the two-character separator, as used by `fix-cookies.ts` and
`test-auth.ts`. `splitSemi [] = [[]]` mirrors `"".split('; ') = [""]`. -/
def splitSemi : List Char → List (List Char)
  | [] => [[]]
  | [c] => [[c]]
  | c1 :: c2 :: rest =>
    if (c1 == ';') && (c2 == ' ') then [] :: splitSemi rest
    else
      match splitSemi (c2 :: rest) with
      | [] => [[c1]]
      | p :: ps => (c1 :: p) :: ps

/-- Whether the two-character separator `"; "` occurs in the string. -/
def hasSep : List Char → Bool
  | [] => false
  | [_] => false
  | c1 :: c2 :: rest => ((c1 == ';') && (c2 == ' ')) || hasSep (c2 :: rest)

/-- The pair parser of `fix-cookies.ts`:
`eq = pair.indexOf('='); name = pair.substring(0, eq); value = pair.substring(eq + 1)`.
When `'='` is absent (`indexOf = -1`), JS yields `name = ""` and
`value = pair` (`substring(0,-1) = ""`, `substring(0) = pair`). -/
def parsePair (p : List Char) : List Char × List Char :=
  if '=' ∈ p then (p.takeWhile (fun c => c != '='), (p.dropWhile (fun c => c != '=')).tail)
  else ([], p)

/-- The template rendering used by both dedup loops:
a map entry `[name, value]` becomes the string `name ++ "=" ++ value`. -/
def renderPair (p : List Char × List Char) : List Char := p.1 ++ '=' :: p.2

/-- One step of the `fix-cookies.ts` loop:
`if (!seen.has(name)) seen.set(name, value)` — first occurrence wins,
insertion order preserved. -/
def dedupStep (acc : List (List Char × List Char)) (p : List Char × List Char) :
    List (List Char × List Char) :=
  if acc.any (fun q => q.1 == p.1) then acc else acc ++ [p]

/-- The whole `fix-cookies.ts` dedup loop over the parsed pairs. -/
def dedupFirst (ps : List (List Char × List Char)) : List (List Char × List Char) :=
  ps.foldl dedupStep []

/-- The deduplicated pair list `fix-cookies.ts` accumulates in `seen`. -/
def fixPairs (s : List Char) : List (List Char × List Char) :=
  dedupFirst ((splitSemi s).map parsePair)

/-- Char-level core of the `fix-cookies.ts` utility: split on `"; "`, parse
each pair, deduplicate keeping the first occurrence of each name, render
back and join with `"; "`. -/
def fixChars (s : List Char) : List Char :=
  joinSemi ((fixPairs s).map renderPair)

/-- The `fix-cookies.ts` utility as a `String → String` transformation. -/
def fixCookies (s : String) : String := ⟨fixChars s.data⟩

/-- The `Before: N cookies` count printed by `fix-cookies.ts`
(`pairs.length`). -/
def beforeCount (s : String) : Nat := (splitSemi s.data).length

/-- The `After: N cookies` count printed by `fix-cookies.ts`
(`seen.size`). -/
def afterCount (s : String) : Nat := (fixPairs s.data).length

/-- A cookie as stored in the Playwright browser context's jar. -/
structure BrowserCookie where
  name : String
  value : String
  domain : String

/-- The target domain of `runAuthentication`'s filtered cookie read. -/
def TARGET_DOMAIN : String := "notebooklm.google.com"

/-- RFC-6265-style cookie-domain match used by the browser when
`context.cookies('https://notebooklm.google.com')` is asked for the cookies
applying to that URL: either an exact host match, or a dot-domain cookie
(`.google.com`) that is a dot-suffix of the host. Models the Playwright
filter invoked at `src/auth.ts` (`runAuthentication`). -/
def domainMatches (cookieDomain target : String) : Bool :=
  cookieDomain == target ||
  ((cookieDomain.data.head? == some '.') && cookieDomain.data.isSuffixOf ('.' :: target.data))

/-- `context.cookies('https://notebooklm.google.com')`: only cookies whose
domain applies to the target URL are returned; the rest of the jar
(identity-provider domains etc.) is excluded. -/
def cookiesForUrl (jar : List BrowserCookie) : List BrowserCookie :=
  jar.filter (fun c => domainMatches c.domain TARGET_DOMAIN)

/-- One step of `runAuthentication`'s dedup loop `cookieMap.set(c.name, c.value)`:
JS `Map.set` overwrites the value of an existing key but keeps the key's
original insertion position; a fresh key is appended. -/
def mapStep (acc : List (String × String)) (c : String × String) : List (String × String) :=
  if acc.any (fun q => q.1 == c.1) then
    acc.map (fun q => if q.1 == c.1 then (q.1, c.2) else q)
  else acc ++ [c]

/-- The `cookieMap` built by `runAuthentication`'s
`for (const c of allCookies) cookieMap.set(c.name, c.value)`. -/
def buildCookieMap (cs : List (String × String)) : List (String × String) :=
  cs.foldl mapStep []

/-- Value lookup in an association list (the entry found first, as a JS
`Map.get` on our insertion-ordered model). -/
def findValue (l : List (String × String)) (n : String) : Option String :=
  (l.find? (fun q => q.1 == n)).map (fun q => q.2)

/-- The `(name, value)` sequence `runAuthentication` reads from the
domain-filtered jar. -/
def extractedPairs (jar : List BrowserCookie) : List (String × String) :=
  (cookiesForUrl jar).map (fun c => (c.name, c.value))

/-- The CookieSet `runAuthentication` constructs and hands on. -/
def extractedCookieSet (jar : List BrowserCookie) : List (String × String) :=
  buildCookieMap (extractedPairs jar)

/-- `Array.from(cookieMap.entries()).map(([n, v]) => n + "=" + v).join('; ')`. -/
def buildCookieString (m : List (String × String)) : List Char :=
  joinSemi (m.map (fun p => p.1.data ++ '=' :: p.2.data))

/-- `const REQUIRED_COOKIES = ['SID', 'HSID', 'SSID', 'APISID', 'SAPISID']`. -/
def REQUIRED_COOKIES : List String := ["SID", "HSID", "SSID", "APISID", "SAPISID"]

/-- `REQUIRED_COOKIES.filter(name => !cookieMap.has(name))`. -/
def missingRequired (m : List (String × String)) : List String :=
  REQUIRED_COOKIES.filter (fun n => !(m.any (fun q => q.1 == n)))

/-- The error taxonomy of the spec; `runAuthentication` and
`getSavedCookies` throw `Error`s whose messages correspond to these. -/
inductive McpError where
  | NotAuthenticated
  | AuthenticationTimeout
  | SessionExpired
  | NotFound
  | RemoteTimeout
  | NoActiveTask
  | EmptySourceSet
  | RemoteServiceError
deriving DecidableEq, Repr

/-- The persisted record written to `~/.notebooklm-mcp/auth.json`:
`{ cookies: cookieString, updatedAt: new Date().toISOString() }`. -/
structure AuthData where
  cookies : String
  updatedAt : String
deriving DecidableEq, Repr

/-- `fs.writeFileSync(authPath, JSON.stringify(authData))`: the store holds
exactly the new record afterwards (any prior record is overwritten). -/
def saveAuth (_st : Option AuthData) (cookieString now : String) : Option AuthData :=
  some ⟨cookieString, now⟩

/-- `AuthManager.getSavedCookies`: throws (`NotAuthenticated`) when no
record file exists, otherwise parses the record and returns its `cookies`
field. -/
def getSavedCookies (st : Option AuthData) : Except McpError String :=
  match st with
  | none => Except.error McpError.NotAuthenticated
  | some d => Except.ok d.cookies

/-- Outcome of the post-extraction tail of `runAuthentication`: the record
it persists and the warning events it emits (each warning carries the list
of missing REQUIRED cookie names). -/
structure AuthRunResult where
  saved : AuthData
  warnings : List (List String)
deriving Repr

/-- The tail of `runAuthentication` after the cookie jar has been read:
build the dedup map, join the cookie string, warn (without failing) when
REQUIRED cookies are missing, and persist `{cookies, updatedAt}`. The
function is total: no error path exists in this region of the source. -/
def finishAuthentication (jarPairs : List (String × String)) (now : String) : AuthRunResult :=
  let m := buildCookieMap jarPairs
  let missing := missingRequired m
  ⟨⟨⟨buildCookieString m⟩, now⟩, if missing.isEmpty then [] else [missing]⟩

/-- JS `String.prototype.includes` at char level. -/
def containsSeq (pat : List Char) : List Char → Bool
  | [] => pat.isEmpty
  | c :: rest => pat.isPrefixOf (c :: rest) || containsSeq pat rest

/-- The text after the first occurrence of `pat` (empty when absent). -/
def afterSeq (pat : List Char) : List Char → List Char
  | [] => []
  | c :: rest => if pat.isPrefixOf (c :: rest) then (c :: rest).drop pat.length else afterSeq pat rest

/-- JS `s.includes(sub)`. -/
def strIncludes (s sub : String) : Bool := containsSeq sub.data s.data

/-- Modelled from the spec: the body scan of SessionContext.bootstrap
(`client.init` in `src/client.ts`, which is absent from the sources at
hand; `examples/test-auth.ts` documents the markers `SNlM0e`/`FdrFJe`).
The spec: "scan the response body for two embedded markers"; a marker that
is present yields the embedded value next to it, an absent marker yields
nothing. -/
def extractMarker (body marker : String) : Option String :=
  if strIncludes body marker then some ⟨afterSeq marker.data body.data⟩ else none

/-- The token state owned by one client instance:
`{ csrfToken, sessionId, initialized }`. -/
structure SessionState where
  csrfToken : Option String
  sessionId : Option String
  initialized : Bool
deriving DecidableEq, Repr

/-- The entry-page fetch as bootstrap observes it: the URL the response
resolved to after redirects, and the response body. -/
structure HttpResponse where
  finalUrl : String
  body : String

/-- Anti-forgery token marker (`SNlM0e`, per `examples/test-auth.ts`). -/
def CSRF_MARKER : String := "SNlM0e"

/-- Session identifier marker (`FdrFJe`, per `examples/test-auth.ts`). -/
def SESSION_MARKER : String := "FdrFJe"

/-- The identity-provider origin the redirect check looks for
(`finalUrl.includes('accounts.google.com')` in `examples/test-auth.ts`). -/
def IDP_DOMAIN : String := "accounts.google.com"

/-- Modelled from the spec: `SessionContext.bootstrap` (`client.init` in
`src/client.ts`, absent from the sources at hand; only its callers
`examples/test-parts.ts` and the diagnostic `examples/test-auth.ts` are
present). Per spec §4.3: if the entry-page fetch resolves to an
identity-provider domain, fail with `SessionExpired`; otherwise scan the
body for the anti-forgery token (absence fatal: `SessionExpired`) and the
session identifier (absence tolerated); on success set the tokens and mark
`initialized`. Returns the resulting state and the error, if any; on error
the state is returned unchanged. -/
def bootstrap (st : SessionState) (r : HttpResponse) : SessionState × Option McpError :=
  if strIncludes r.finalUrl IDP_DOMAIN then (st, some McpError.SessionExpired)
  else
    match extractMarker r.body CSRF_MARKER with
    | none => (st, some McpError.SessionExpired)
    | some tok => (⟨some tok, extractMarker r.body SESSION_MARKER, true⟩, none)

/-- The uninitialized context a fresh client starts from. -/
def initialSessionState : SessionState := ⟨none, none, false⟩

/-- Timing environment of `runAuthentication`'s `Promise.race`: for each of
the four login-completion signals, the instant (ms from the start of the
wait) at which it would fire, or `none` if it never fires. -/
structure LoginSignals where
  urlSignalAt : Option Nat
  domSignalAt : Option Nat
  accountSignalAt : Option Nat
  cookieSignalAt : Option Nat

/-- The shared bound of the raced waits: `{ timeout: 300000 }` on each of
the `waitForURL` / `waitForSelector` arms, all started together. -/
def AUTH_TIMEOUT_MS : Nat := 300000

/-- The four signal arms of the race, in source order. -/
def signalTimes (s : LoginSignals) : List (Option Nat) :=
  [s.urlSignalAt, s.domSignalAt, s.accountSignalAt, s.cookieSignalAt]

/-- Whether any login-completion signal fires strictly before instant `t`. -/
def anySignalWithin (s : LoginSignals) (t : Nat) : Bool :=
  (signalTimes s).any (fun o => match o with | some x => decide (x < t) | none => false)

/-- Outcome of `Promise.race` in `runAuthentication`: a signal firing
before the shared 300000 ms bound resolves the race; otherwise the first
timed arm rejects at the bound and the surrounding catch throws the
authentication-timeout error. -/
def runAuthWait (s : LoginSignals) : Except McpError Unit :=
  if anySignalWithin s AUTH_TIMEOUT_MS then Except.ok ()
  else Except.error McpError.AuthenticationTimeout

/-- How long the race suspends: until the earliest signal, or until the
shared bound when no signal fires in time. -/
def waitDuration (s : LoginSignals) : Nat :=
  match ((signalTimes s).filterMap id).min? with
  | some t => min t AUTH_TIMEOUT_MS
  | none => AUTH_TIMEOUT_MS

end NLM

namespace NLM

theorem stringMkData (s : String) : (⟨s.data⟩ : String) = s := by
  obtain ⟨d⟩ := s
  rfl

/-- C3: if the entry-page fetch resolves (after redirects) to the
identity-provider origin, bootstrap fails with `SessionExpired` and returns
the session context unchanged — in particular neither `csrfToken` nor
`sessionId` is populated by the attempt. -/
theorem claim_c3 (st : SessionState) (r : HttpResponse)
    (h : strIncludes r.finalUrl IDP_DOMAIN = true) :
    bootstrap st r = (st, some McpError.SessionExpired) := by
  simp [bootstrap, h]

theorem claim_c3_witness :
    bootstrap initialSessionState ⟨"https://accounts.google.com/v3/signin", "<html></html>"⟩ =
      (initialSessionState, some McpError.SessionExpired) :=
  claim_c3 initialSessionState ⟨"https://accounts.google.com/v3/signin", "<html></html>"⟩
    (by decide)

/-- C4, counterexample: a completed (error-free) bootstrap attempt on a
body that carries the anti-forgery marker but no session-identifier marker
leaves `csrfToken` set while `sessionId` is absent — the two fields are
observable as "one set without the other", contradicting the claim. -/
theorem claim_c4_counterexample :
    ((bootstrap initialSessionState ⟨"https://notebooklm.google.com/", "abSNlM0etokcd"⟩).2
      = none) ∧
    ((bootstrap initialSessionState ⟨"https://notebooklm.google.com/", "abSNlM0etokcd"⟩).1.csrfToken.isSome
      = true) ∧
    ((bootstrap initialSessionState ⟨"https://notebooklm.google.com/", "abSNlM0etokcd"⟩).1.sessionId
      = none) := by
  refine ⟨?_, ?_, ?_⟩ <;> decide

/-- C4, amended: after a completed bootstrap attempt from the uninitialized
context, a failed attempt leaves both `csrfToken` and `sessionId` absent; a
successful attempt always sets `csrfToken`, while `sessionId` may or may
not be set (its marker's absence is tolerated); `sessionId` is never set
while `csrfToken` is absent. -/
theorem claim_c4_amended (r : HttpResponse) :
    ((bootstrap initialSessionState r).2.isSome = true →
      (bootstrap initialSessionState r).1.csrfToken = none ∧
      (bootstrap initialSessionState r).1.sessionId = none) ∧
    ((bootstrap initialSessionState r).2 = none →
      (bootstrap initialSessionState r).1.csrfToken.isSome = true) ∧
    ((bootstrap initialSessionState r).1.sessionId.isSome = true →
      (bootstrap initialSessionState r).1.csrfToken.isSome = true) := by
  cases hurl : strIncludes r.finalUrl IDP_DOMAIN with
  | true => simp [bootstrap, hurl, initialSessionState]
  | false =>
    cases hm : extractMarker r.body CSRF_MARKER with
    | none => simp [bootstrap, hurl, hm, initialSessionState]
    | some tok => simp [bootstrap, hurl, hm]

theorem claim_c4_witness :
    (bootstrap initialSessionState ⟨"https://accounts.google.com/x", "b"⟩).1.csrfToken = none ∧
    (bootstrap initialSessionState ⟨"https://accounts.google.com/x", "b"⟩).1.sessionId = none :=
  (claim_c4_amended ⟨"https://accounts.google.com/x", "b"⟩).1 (by decide)

/-- C5: `fixCookies` on `"SID=1; SID=2; HSID=x"` yields `"SID=1; HSID=x"`
(first occurrence of each name wins), reporting Before = 3 (the input
name=value pair count) and After = 2 (the unique-name count). -/
theorem claim_c5 :
    fixCookies "SID=1; SID=2; HSID=x" = "SID=1; HSID=x" ∧
    beforeCount "SID=1; SID=2; HSID=x" = 3 ∧
    afterCount "SID=1; SID=2; HSID=x" = 2 := by
  refine ⟨?_, ?_, ?_⟩ <;> decide

/-- C6: persisting a record with cookie string `s` and loading it back
returns exactly `s`, and loading when no record exists fails with
`NotAuthenticated`. -/
theorem claim_c6 :
    (∀ (st : Option AuthData) (s now : String),
      getSavedCookies (saveAuth st s now) = Except.ok s) ∧
    getSavedCookies none = Except.error McpError.NotAuthenticated :=
  ⟨fun _ _ _ => rfl, rfl⟩

/-- C7: the raced login-completion wait has the single shared bound of
300000 ms (= 5 minutes); when no signal fires within the bound the wait
fails with `AuthenticationTimeout`; and the wait never suspends longer
than the bound. -/
theorem claim_c7 :
    AUTH_TIMEOUT_MS = 5 * 60 * 1000 ∧
    (∀ s : LoginSignals, anySignalWithin s AUTH_TIMEOUT_MS = false →
      runAuthWait s = Except.error McpError.AuthenticationTimeout) ∧
    (∀ s : LoginSignals, waitDuration s ≤ AUTH_TIMEOUT_MS) := by
  refine ⟨by decide, fun s h => ?_, fun s => ?_⟩
  · simp [runAuthWait, h]
  · simp only [waitDuration]
    split
    · exact min_le_right _ _
    · exact Nat.le_refl _

theorem claim_c7_witness :
    runAuthWait ⟨none, none, none, none⟩ = Except.error McpError.AuthenticationTimeout :=
  claim_c7.2.1 ⟨none, none, none, none⟩ (by decide)

/-- C8: when REQUIRED cookie names are missing from the deduplicated
CookieSet, `runAuthentication` emits a warning naming them but does not
fail: the cookie string is still persisted and the run completes (the
embedded tail is total — it has no error path). -/
theorem claim_c8 (jarPairs : List (String × String)) (now : String)
    (h : missingRequired (buildCookieMap jarPairs) ≠ []) :
    (finishAuthentication jarPairs now).warnings =
      [missingRequired (buildCookieMap jarPairs)] ∧
    (finishAuthentication jarPairs now).saved =
      ⟨⟨buildCookieString (buildCookieMap jarPairs)⟩, now⟩ ∧
    getSavedCookies (some (finishAuthentication jarPairs now).saved) =
      Except.ok ⟨buildCookieString (buildCookieMap jarPairs)⟩ := by
  cases hm : missingRequired (buildCookieMap jarPairs) with
  | nil => exact absurd hm h
  | cons a t =>
    refine ⟨?_, ?_, ?_⟩ <;> simp [finishAuthentication, hm, getSavedCookies]

theorem claim_c8_witness :
    (finishAuthentication [("FOO", "1")] "2026-01-01T00:00:00.000Z").warnings =
      [missingRequired (buildCookieMap [("FOO", "1")])] ∧
    (finishAuthentication [("FOO", "1")] "2026-01-01T00:00:00.000Z").saved =
      ⟨⟨buildCookieString (buildCookieMap [("FOO", "1")])⟩, "2026-01-01T00:00:00.000Z"⟩ ∧
    getSavedCookies (some (finishAuthentication [("FOO", "1")] "2026-01-01T00:00:00.000Z").saved) =
      Except.ok ⟨buildCookieString (buildCookieMap [("FOO", "1")])⟩ :=
  claim_c8 [("FOO", "1")] "2026-01-01T00:00:00.000Z" (by decide)

end NLM

namespace NLM

theorem mapStep_findValue (acc : List (String × String)) (c : String × String) (n : String) :
    findValue (mapStep acc c) n = if c.1 == n then some c.2 else findValue acc n := by
  unfold mapStep findValue
  by_cases hany : (acc.any (fun q => q.1 == c.1)) = true
  · rw [if_pos hany, List.find?_map]
    have hcomp : ((fun q : String × String => q.1 == n) ∘
        (fun q : String × String => if q.1 == c.1 then (q.1, c.2) else q))
        = fun q : String × String => q.1 == n := by
      funext q
      by_cases h : q.1 = c.1 <;> simp [h]
    rw [hcomp]
    by_cases hn : c.1 = n
    · obtain ⟨q0, hq0mem, hq0p⟩ := List.any_eq_true.mp hany
      have hsome : (acc.find? (fun q => q.1 == n)).isSome = true := by
        rw [List.find?_isSome]
        exact ⟨q0, hq0mem, by rw [← hn]; exact hq0p⟩
      obtain ⟨q1, hq1⟩ := Option.isSome_iff_exists.mp hsome
      have hq1n : q1.1 = n :=
        beq_iff_eq.mp (@List.find?_some (String × String) (fun q => q.1 == n) q1 acc hq1)
      rw [hq1, if_pos (beq_iff_eq.mpr hn)]
      simp [hq1n, hn]
    · rw [if_neg (fun hh => hn (beq_iff_eq.mp hh))]
      cases hf : acc.find? (fun q => q.1 == n) with
      | none => simp
      | some q1 =>
        have hq1n : q1.1 = n :=
          beq_iff_eq.mp (@List.find?_some (String × String) (fun q => q.1 == n) q1 acc hf)
        have hne : ¬ q1.1 = c.1 := by
          rw [hq1n]
          exact fun hh => hn hh.symm
        simp [hne]
  · rw [if_neg hany, List.find?_append]
    by_cases hn : c.1 = n
    · have hnone : acc.find? (fun q => q.1 == n) = none := by
        rw [List.find?_eq_none]
        intro q hq hcontra
        have hq1 : (q.1 == c.1) = true := by
          rw [hn]
          exact hcontra
        exact hany (List.any_eq_true.mpr ⟨q, hq, hq1⟩)
      rw [hnone, if_pos (beq_iff_eq.mpr hn)]
      simp [List.find?_cons, beq_iff_eq.mpr hn]
    · rw [if_neg (fun hh => hn (beq_iff_eq.mp hh))]
      have hcn : (c.1 == n) = false := by
        rw [Bool.eq_false_iff]
        exact fun hh => hn (beq_iff_eq.mp hh)
      simp [List.find?_cons, hcn, Option.or_none]

theorem findValue_cons (q : String × String) (l : List (String × String)) (n : String) :
    findValue (q :: l) n = if q.1 == n then some q.2 else findValue l n := by
  unfold findValue
  rw [List.find?_cons]
  cases hq : (q.1 == n) <;> simp [hq]

theorem buildCookieMap_findValue (cs : List (String × String)) (n : String) :
    findValue (buildCookieMap cs) n = findValue cs.reverse n := by
  induction cs using List.reverseRecOn with
  | nil => rfl
  | append_singleton cs c ih =>
    unfold buildCookieMap at ih ⊢
    rw [List.foldl_append, List.reverse_append]
    simp only [List.foldl_cons, List.foldl_nil, List.reverse_cons, List.reverse_nil,
      List.nil_append, List.singleton_append]
    rw [mapStep_findValue, findValue_cons, ih]

theorem mapStep_keys (acc : List (String × String)) (c : String × String) :
    (mapStep acc c).map Prod.fst =
      if acc.any (fun q => q.1 == c.1) then acc.map Prod.fst
      else acc.map Prod.fst ++ [c.1] := by
  unfold mapStep
  by_cases hany : (acc.any (fun q => q.1 == c.1)) = true
  · rw [if_pos hany, if_pos hany, List.map_map]
    apply List.map_congr_left
    intro q _
    by_cases h : q.1 = c.1 <;> simp [h]
  · rw [if_neg hany, if_neg hany, List.map_append]
    rfl

theorem mapStep_keys_nodup (acc : List (String × String)) (c : String × String)
    (h : (acc.map Prod.fst).Nodup) : ((mapStep acc c).map Prod.fst).Nodup := by
  rw [mapStep_keys]
  by_cases hany : (acc.any (fun q => q.1 == c.1)) = true
  · rwa [if_pos hany]
  · rw [if_neg hany]
    refine List.Nodup.append h (List.nodup_singleton c.1) ?_
    intro a ha hb
    rw [List.mem_singleton] at hb
    subst hb
    obtain ⟨q, hqmem, hq⟩ := List.mem_map.mp ha
    exact (List.any_eq_false.mp (Bool.eq_false_iff.mpr hany)) q hqmem
      (beq_iff_eq.mpr hq)

theorem foldl_mapStep_keys_nodup (cs : List (String × String)) :
    ∀ acc : List (String × String), (acc.map Prod.fst).Nodup →
      ((cs.foldl mapStep acc).map Prod.fst).Nodup := by
  induction cs with
  | nil => intro acc h; exact h
  | cons c cs ih =>
    intro acc h
    rw [List.foldl_cons]
    exact ih (mapStep acc c) (mapStep_keys_nodup acc c h)

theorem mapStep_keys_mem (acc : List (String × String)) (c : String × String) (n : String) :
    n ∈ (mapStep acc c).map Prod.fst ↔ n ∈ acc.map Prod.fst ∨ n = c.1 := by
  rw [mapStep_keys]
  by_cases hany : (acc.any (fun q => q.1 == c.1)) = true
  · rw [if_pos hany]
    constructor
    · exact fun h => Or.inl h
    · rintro (h | rfl)
      · exact h
      · obtain ⟨q, hqmem, hq⟩ := List.any_eq_true.mp hany
        exact List.mem_map.mpr ⟨q, hqmem, beq_iff_eq.mp hq⟩
  · rw [if_neg hany, List.mem_append, List.mem_singleton]

theorem foldl_mapStep_keys_mem (cs : List (String × String)) :
    ∀ (acc : List (String × String)) (n : String),
      n ∈ (cs.foldl mapStep acc).map Prod.fst ↔
        n ∈ acc.map Prod.fst ∨ n ∈ cs.map Prod.fst := by
  induction cs with
  | nil => intro acc n; simp
  | cons c cs ih =>
    intro acc n
    rw [List.foldl_cons, ih, mapStep_keys_mem]
    simp only [List.map_cons, List.mem_cons]
    tauto

theorem findValue_eq_of_mem (l : List (String × String)) (n : String) (v : String)
    (hnd : (l.map Prod.fst).Nodup) (h : (n, v) ∈ l) : findValue l n = some v := by
  induction l with
  | nil => cases h
  | cons q t ih =>
    rw [List.map_cons, List.nodup_cons] at hnd
    rw [findValue_cons]
    rcases List.mem_cons.mp h with hq | ht
    · rw [← hq]
      simp
    · have hqn : (q.1 == n) = false := by
        rw [Bool.eq_false_iff]
        intro hcontra
        apply hnd.1
        rw [beq_iff_eq.mp hcontra]
        exact List.mem_map.mpr ⟨(n, v), ht, rfl⟩
      rw [hqn, if_neg (by simp)]
      exact ih hnd.2 ht

theorem findValue_some_mem (l : List (String × String)) (n v : String)
    (h : findValue l n = some v) : (n, v) ∈ l := by
  unfold findValue at h
  cases hf : l.find? (fun q => q.1 == n) with
  | none => rw [hf] at h; cases h
  | some q0 =>
    rw [hf] at h
    have hq0p : (q0.1 == n) = true :=
      @List.find?_some (String × String) (fun q => q.1 == n) q0 l hf
    have hq0mem : q0 ∈ l := List.mem_of_find?_eq_some hf
    have hv : q0.2 = v := by
      simpa using h
    have : q0 = (n, v) := by
      obtain ⟨a, b⟩ := q0
      simp only [Prod.mk.injEq]
      exact ⟨beq_iff_eq.mp hq0p, hv⟩
    rwa [this] at hq0mem

/-- C1: the CookieSet constructed by `runAuthentication`'s Map-based dedup
contains exactly one entry per unique input cookie name (its key list has
no duplicates and carries precisely the input names), and each entry's
value is the value of the last occurrence of that name in input order
(looking the name up in the map agrees with the first match in the
reversed input). -/
theorem claim_c1 (cs : List (String × String)) (n : String) :
    ((buildCookieMap cs).map Prod.fst).Nodup ∧
    (n ∈ (buildCookieMap cs).map Prod.fst ↔ n ∈ cs.map Prod.fst) ∧
    findValue (buildCookieMap cs) n = findValue cs.reverse n := by
  refine ⟨foldl_mapStep_keys_nodup cs [] (by simp), ?_, buildCookieMap_findValue cs n⟩
  have h := foldl_mapStep_keys_mem cs [] n
  simpa using h

/-- C2: every entry of the CookieSet built by `runAuthentication`
originates from a jar cookie whose domain matches the target domain
`notebooklm.google.com`; a cookie from a non-matching domain (for example
an identity-provider host) never contributes an entry. -/
theorem claim_c2 (jar : List BrowserCookie) (n v : String)
    (h : (n, v) ∈ extractedCookieSet jar) :
    ∃ c ∈ jar, c.name = n ∧ c.value = v ∧ domainMatches c.domain TARGET_DOMAIN = true := by
  have hnd : ((extractedCookieSet jar).map Prod.fst).Nodup :=
    foldl_mapStep_keys_nodup (extractedPairs jar) [] (by simp)
  have hfv : findValue (extractedCookieSet jar) n = some v :=
    findValue_eq_of_mem _ n v hnd h
  rw [extractedCookieSet, buildCookieMap_findValue] at hfv
  have hmem : (n, v) ∈ (extractedPairs jar).reverse := findValue_some_mem _ n v hfv
  rw [List.mem_reverse] at hmem
  obtain ⟨c, hc, hcv⟩ := List.mem_map.mp hmem
  rw [cookiesForUrl, List.mem_filter] at hc
  refine ⟨c, hc.1, ?_, ?_, hc.2⟩
  · exact congrArg Prod.fst hcv
  · exact congrArg Prod.snd hcv

theorem claim_c2_witness :
    ∃ c ∈ [(⟨"SID", "good", "notebooklm.google.com"⟩ : BrowserCookie),
           (⟨"SID", "evil", "accounts.google.com"⟩ : BrowserCookie)],
      c.name = "SID" ∧ c.value = "good" ∧ domainMatches c.domain TARGET_DOMAIN = true :=
  claim_c2 [⟨"SID", "good", "notebooklm.google.com"⟩, ⟨"SID", "evil", "accounts.google.com"⟩]
    "SID" "good" (by decide)

end NLM

namespace NLM

theorem splitSemi_pos (c1 c2 : Char) (rest : List Char)
    (h : ((c1 == ';') && (c2 == ' ')) = true) :
    splitSemi (c1 :: c2 :: rest) = [] :: splitSemi rest := by
  simp only [splitSemi]
  rw [if_pos h]

theorem splitSemi_neg (c1 c2 : Char) (rest : List Char)
    (h : ¬ ((c1 == ';') && (c2 == ' ')) = true) :
    splitSemi (c1 :: c2 :: rest) =
      (match splitSemi (c2 :: rest) with
       | [] => [[c1]]
       | p :: ps => (c1 :: p) :: ps) := by
  simp only [splitSemi]
  rw [if_neg h]

theorem hasSep_cons_cons (c1 c2 : Char) (rest : List Char) :
    hasSep (c1 :: c2 :: rest) = (((c1 == ';') && (c2 == ' ')) || hasSep (c2 :: rest)) := by
  rfl

theorem splitSemi_sep_cons (r : List Char) :
    splitSemi (';' :: ' ' :: r) = [] :: splitSemi r :=
  splitSemi_pos ';' ' ' r (by decide)

theorem splitSemi_ne_nil (x : List Char) : splitSemi x ≠ [] := by
  induction x using splitSemi.induct with
  | case1 => simp [splitSemi]
  | case2 c => simp [splitSemi]
  | case3 c1 c2 rest h ih => rw [splitSemi_pos c1 c2 rest h]; simp
  | case4 c1 c2 rest h hnil ih => rw [splitSemi_neg c1 c2 rest h, hnil]; simp
  | case5 c1 c2 rest h p ps hps ih => rw [splitSemi_neg c1 c2 rest h, hps]; simp

theorem noSep_splitSemi (x : List Char) (hx : hasSep x = false) : splitSemi x = [x] := by
  induction x using splitSemi.induct with
  | case1 => rfl
  | case2 c => rfl
  | case3 c1 c2 rest h ih =>
    rw [hasSep_cons_cons, Bool.or_eq_false_iff] at hx
    rw [hx.1] at h
    exact absurd h Bool.false_ne_true
  | case4 c1 c2 rest h hnil ih => exact absurd hnil (splitSemi_ne_nil (c2 :: rest))
  | case5 c1 c2 rest h p ps hps ih =>
    rw [hasSep_cons_cons, Bool.or_eq_false_iff] at hx
    have hin := ih hx.2
    rw [hps] at hin
    rw [splitSemi_neg c1 c2 rest h, hps]
    injection hin with h1 h2
    subst h1
    subst h2
    rfl

end NLM

namespace NLM

theorem splitSemi_first_head (y : List Char) (q : Char) (qs : List Char)
    (ps : List (List Char)) (h : splitSemi y = (q :: qs) :: ps) : y.head? = some q := by
  cases y with
  | nil => simp [splitSemi] at h
  | cons c1 t =>
    cases t with
    | nil =>
      simp only [splitSemi] at h
      injection h with h1 h2
      injection h1 with h3 h4
      rw [h3]
      rfl
    | cons c2 rest =>
      by_cases hc : ((c1 == ';') && (c2 == ' ')) = true
      · rw [splitSemi_pos c1 c2 rest hc] at h
        injection h with h1 h2
        exact absurd h1.symm (List.cons_ne_nil q qs)
      · rw [splitSemi_neg c1 c2 rest hc] at h
        cases hs : splitSemi (c2 :: rest) with
        | nil =>
          rw [hs] at h
          injection h with h1 h2
          injection h1 with h3 h4
          rw [h3]
          rfl
        | cons p ps' =>
          rw [hs] at h
          injection h with h1 h2
          injection h1 with h3 h4
          rw [h3]
          rfl

theorem mem_splitSemi_noSep (x : List Char) : ∀ p ∈ splitSemi x, hasSep p = false := by
  induction x using splitSemi.induct with
  | case1 =>
    intro p hp
    simp only [splitSemi, List.mem_singleton] at hp
    subst hp
    rfl
  | case2 c =>
    intro p hp
    simp only [splitSemi, List.mem_singleton] at hp
    subst hp
    rfl
  | case3 c1 c2 rest h ih =>
    intro p hp
    rw [splitSemi_pos c1 c2 rest h] at hp
    rcases List.mem_cons.mp hp with rfl | hp'
    · rfl
    · exact ih p hp'
  | case4 c1 c2 rest h hnil ih => exact absurd hnil (splitSemi_ne_nil (c2 :: rest))
  | case5 c1 c2 rest h p0 ps0 hps ih =>
    intro p hp
    rw [splitSemi_neg c1 c2 rest h, hps] at hp
    have hp0sep : hasSep p0 = false := by
      apply ih
      rw [hps]
      exact List.mem_cons_self p0 ps0
    rcases List.mem_cons.mp hp with rfl | hp'
    · cases hp0 : p0 with
      | nil => rfl
      | cons q qs =>
        rw [hp0] at hps
        have hhead : (c2 :: rest).head? = some q := splitSemi_first_head _ q qs ps0 hps
        have hq : q = c2 := by
          injection hhead with hh
          exact hh.symm
        rw [hasSep_cons_cons, Bool.or_eq_false_iff]
        refine ⟨?_, hp0 ▸ hp0sep⟩
        rw [hq]
        rw [Bool.eq_false_iff]
        exact h
    · apply ih
      rw [hps]
      exact List.mem_cons_of_mem p0 hp'

end NLM

namespace NLM

theorem hasSep_cons_false (c : Char) (b : List Char) (h : hasSep (c :: b) = false) :
    hasSep b = false := by
  cases b with
  | nil => rfl
  | cons b0 b1 =>
    rw [hasSep_cons_cons, Bool.or_eq_false_iff] at h
    exact h.2

theorem hasSep_tail (y : List Char) (h : hasSep y = false) : hasSep y.tail = false := by
  cases y with
  | nil => rfl
  | cons c t => exact hasSep_cons_false c t h

theorem hasSep_append_false (b a : List Char) (h : hasSep (a ++ b) = false) :
    hasSep a = false ∧ hasSep b = false := by
  induction a using hasSep.induct with
  | case1 => exact ⟨rfl, by simpa using h⟩
  | case2 c =>
    rw [List.singleton_append] at h
    exact ⟨rfl, hasSep_cons_false c b h⟩
  | case3 c1 c2 rest ih =>
    rw [List.cons_append, List.cons_append, hasSep_cons_cons, Bool.or_eq_false_iff] at h
    have hr := ih (by rw [List.cons_append]; exact h.2)
    refine ⟨?_, hr.2⟩
    rw [hasSep_cons_cons, Bool.or_eq_false_iff]
    exact ⟨h.1, hr.1⟩

theorem hasSep_eqchar_cons (b : List Char) (hb : hasSep b = false) :
    hasSep ('=' :: b) = false := by
  cases b with
  | nil => rfl
  | cons b0 b1 =>
    rw [hasSep_cons_cons, Bool.or_eq_false_iff]
    exact ⟨by simp, hb⟩

theorem hasSep_render (a b : List Char) (ha : hasSep a = false) (hb : hasSep b = false) :
    hasSep (a ++ '=' :: b) = false := by
  induction a using hasSep.induct with
  | case1 => simpa using hasSep_eqchar_cons b hb
  | case2 c =>
    rw [List.singleton_append, hasSep_cons_cons, Bool.or_eq_false_iff]
    exact ⟨by simp, hasSep_eqchar_cons b hb⟩
  | case3 c1 c2 rest ih =>
    rw [hasSep_cons_cons, Bool.or_eq_false_iff] at ha
    rw [List.cons_append, List.cons_append, hasSep_cons_cons, Bool.or_eq_false_iff]
    refine ⟨ha.1, ?_⟩
    rw [← List.cons_append]
    exact ih ha.2

theorem splitSemi_append_sep (r x : List Char) (hx : hasSep x = false) :
    splitSemi (x ++ ';' :: ' ' :: r) = x :: splitSemi r := by
  induction x using hasSep.induct with
  | case1 => simpa using splitSemi_sep_cons r
  | case2 c =>
    rw [List.singleton_append]
    rw [splitSemi_neg c ';' (' ' :: r) (by simp), splitSemi_sep_cons r]
  | case3 c1 c2 rest ih =>
    rw [hasSep_cons_cons, Bool.or_eq_false_iff] at hx
    rw [List.cons_append, List.cons_append]
    have hcond : ¬ ((c1 == ';') && (c2 == ' ')) = true := by
      rw [hx.1]
      exact Bool.false_ne_true
    rw [splitSemi_neg c1 c2 (rest ++ ';' :: ' ' :: r) hcond]
    rw [← List.cons_append, ih hx.2]

theorem joinSemi_cons (x : List Char) (ps : List (List Char)) (h : ps ≠ []) :
    joinSemi (x :: ps) = x ++ ';' :: ' ' :: joinSemi ps := by
  cases ps with
  | nil => exact absurd rfl h
  | cons y ys => rfl

theorem joinSemi_cons_head (a : Char) (p : List Char) (ps : List (List Char)) :
    joinSemi ((a :: p) :: ps) = a :: joinSemi (p :: ps) := by
  cases ps with
  | nil => rfl
  | cons q qs => rfl

theorem splitSemi_joinSemi (xs : List (List Char)) (hne : xs ≠ [])
    (hall : ∀ x ∈ xs, hasSep x = false) : splitSemi (joinSemi xs) = xs := by
  induction xs with
  | nil => exact absurd rfl hne
  | cons x ys ih =>
    cases ys with
    | nil => simpa [joinSemi] using noSep_splitSemi x (hall x (List.mem_cons_self x []))
    | cons y ys' =>
      rw [joinSemi_cons x (y :: ys') (by simp)]
      rw [splitSemi_append_sep _ x (hall x (List.mem_cons_self x _))]
      rw [ih (by simp) (fun z hz => hall z (List.mem_cons_of_mem x hz))]

theorem joinSemi_splitSemi (x : List Char) : joinSemi (splitSemi x) = x := by
  induction x using splitSemi.induct with
  | case1 => rfl
  | case2 c => rfl
  | case3 c1 c2 rest h ih =>
    rw [Bool.and_eq_true] at h
    have hc1 : c1 = ';' := beq_iff_eq.mp h.1
    have hc2 : c2 = ' ' := beq_iff_eq.mp h.2
    subst hc1
    subst hc2
    rw [splitSemi_sep_cons rest]
    rw [joinSemi_cons [] (splitSemi rest) (splitSemi_ne_nil rest)]
    rw [List.nil_append, ih]
  | case4 c1 c2 rest h hnil ih => exact absurd hnil (splitSemi_ne_nil (c2 :: rest))
  | case5 c1 c2 rest h p ps hps ih =>
    rw [splitSemi_neg c1 c2 rest h, hps]
    rw [hps] at ih
    show joinSemi ((c1 :: p) :: ps) = c1 :: c2 :: rest
    rw [joinSemi_cons_head, ih]

end NLM

namespace NLM

theorem takeWhile_name (n v : List Char) (hn : '=' ∉ n) :
    (n ++ '=' :: v).takeWhile (fun c => c != '=') = n := by
  induction n with
  | nil => simp [List.takeWhile_cons]
  | cons c n' ih =>
    rw [List.mem_cons] at hn
    push_neg at hn
    rw [List.cons_append, List.takeWhile_cons]
    have hc : ((fun c => c != '=') c) = true := bne_iff_ne.mpr (fun hh => hn.1 hh.symm)
    rw [if_pos hc]
    rw [ih hn.2]

theorem dropWhile_name (n v : List Char) (hn : '=' ∉ n) :
    (n ++ '=' :: v).dropWhile (fun c => c != '=') = '=' :: v := by
  induction n with
  | nil => simp [List.dropWhile_cons]
  | cons c n' ih =>
    rw [List.mem_cons] at hn
    push_neg at hn
    rw [List.cons_append, List.dropWhile_cons]
    have hc : ((fun c => c != '=') c) = true := bne_iff_ne.mpr (fun hh => hn.1 hh.symm)
    rw [if_pos hc]
    exact ih hn.2

theorem parsePair_renderPair (n v : List Char) (hn : '=' ∉ n) :
    parsePair (n ++ '=' :: v) = (n, v) := by
  unfold parsePair
  rw [if_pos (List.mem_append.mpr (Or.inr (List.mem_cons_self '=' v)))]
  rw [takeWhile_name n v hn, dropWhile_name n v hn]
  rfl

theorem parsePair_render_id (q : List Char × List Char) (hq : '=' ∉ q.1) :
    parsePair (renderPair q) = q := by
  obtain ⟨n, v⟩ := q
  exact parsePair_renderPair n v hq

theorem dropWhile_eq_mem (p : List Char) (h : '=' ∈ p) :
    ∃ t, p.dropWhile (fun c => c != '=') = '=' :: t := by
  induction p with
  | nil => cases h
  | cons c p' ih =>
    by_cases hc : c = '='
    · subst hc
      exact ⟨p', by simp [List.dropWhile_cons]⟩
    · have h' : '=' ∈ p' := by
        rcases List.mem_cons.mp h with hh | hh
        · exact absurd hh.symm hc
        · exact hh
      obtain ⟨t, ht⟩ := ih h'
      refine ⟨t, ?_⟩
      rw [List.dropWhile_cons, if_pos (bne_iff_ne.mpr hc)]
      exact ht

theorem renderPair_parsePair (p : List Char) (h : '=' ∈ p) :
    renderPair (parsePair p) = p := by
  obtain ⟨t, ht⟩ := dropWhile_eq_mem p h
  show (parsePair p).1 ++ '=' :: (parsePair p).2 = p
  unfold parsePair
  rw [if_pos h]
  show p.takeWhile (fun c => c != '=') ++ '=' :: (p.dropWhile (fun c => c != '=')).tail = p
  rw [ht, List.tail_cons, ← ht, List.takeWhile_append_dropWhile]

theorem parsePair_fst_no_eq (p : List Char) : '=' ∉ (parsePair p).1 := by
  unfold parsePair
  by_cases h : '=' ∈ p
  · rw [if_pos h]
    intro hmem
    have hh := List.mem_takeWhile_imp hmem
    simp at hh
  · rw [if_neg h]
    exact List.not_mem_nil '='

theorem parsePair_noSep (p : List Char) (hp : hasSep p = false) :
    hasSep (parsePair p).1 = false ∧ hasSep (parsePair p).2 = false := by
  unfold parsePair
  by_cases h : '=' ∈ p
  · rw [if_pos h]
    have hps : hasSep (p.takeWhile (fun c => c != '=')) = false ∧
        hasSep (p.dropWhile (fun c => c != '=')) = false := by
      apply hasSep_append_false
      rw [List.takeWhile_append_dropWhile]
      exact hp
    exact ⟨hps.1, hasSep_tail _ hps.2⟩
  · rw [if_neg h]
    exact ⟨rfl, hp⟩

theorem dedupStep_mem (acc : List (List Char × List Char)) (p : List Char × List Char)
    (h : (acc.any (fun q => q.1 == p.1)) = true) : dedupStep acc p = acc := by
  unfold dedupStep
  rw [if_pos h]

theorem dedupStep_not_mem (acc : List (List Char × List Char)) (p : List Char × List Char)
    (h : ¬ (acc.any (fun q => q.1 == p.1)) = true) : dedupStep acc p = acc ++ [p] := by
  unfold dedupStep
  rw [if_neg h]

theorem foldl_dedupStep_acc (ps : List (List Char × List Char)) :
    ∀ acc, ∃ t, ps.foldl dedupStep acc = acc ++ t := by
  induction ps with
  | nil => intro acc; exact ⟨[], by simp⟩
  | cons p ps ih =>
    intro acc
    rw [List.foldl_cons]
    by_cases h : (acc.any (fun q => q.1 == p.1)) = true
    · rw [dedupStep_mem acc p h]
      exact ih acc
    · rw [dedupStep_not_mem acc p h]
      obtain ⟨t, ht⟩ := ih (acc ++ [p])
      exact ⟨[p] ++ t, by rw [ht, List.append_assoc]⟩

theorem dedupFirst_ne_nil (ps : List (List Char × List Char)) (h : ps ≠ []) :
    dedupFirst ps ≠ [] := by
  cases ps with
  | nil => exact absurd rfl h
  | cons p ps' =>
    unfold dedupFirst
    rw [List.foldl_cons, dedupStep_not_mem [] p (by simp)]
    obtain ⟨t, ht⟩ := foldl_dedupStep_acc ps' ([] ++ [p])
    rw [ht]
    simp

theorem foldl_dedupStep_nodup (ps : List (List Char × List Char)) :
    ∀ acc, ((acc.map Prod.fst).Nodup) → (((ps.foldl dedupStep acc).map Prod.fst).Nodup) := by
  induction ps with
  | nil => intro acc h; exact h
  | cons p ps ih =>
    intro acc h
    rw [List.foldl_cons]
    apply ih
    by_cases hany : (acc.any (fun q => q.1 == p.1)) = true
    · rw [dedupStep_mem acc p hany]
      exact h
    · rw [dedupStep_not_mem acc p hany]
      rw [List.map_append]
      refine List.Nodup.append h (by simp) ?_
      intro a ha hb
      simp only [List.map_cons, List.map_nil, List.mem_singleton] at hb
      subst hb
      obtain ⟨q, hq, hq1⟩ := List.mem_map.mp ha
      exact hany (List.any_eq_true.mpr ⟨q, hq, beq_iff_eq.mpr hq1⟩)

theorem dedupFirst_keys_nodup (ps : List (List Char × List Char)) :
    ((dedupFirst ps).map Prod.fst).Nodup :=
  foldl_dedupStep_nodup ps [] (by simp)

theorem foldl_dedupStep_eq (ps : List (List Char × List Char)) :
    ∀ acc, (((acc ++ ps).map Prod.fst).Nodup) → ps.foldl dedupStep acc = acc ++ ps := by
  induction ps with
  | nil => intro acc h; simp
  | cons p ps ih =>
    intro acc h
    rw [List.foldl_cons]
    have hnot : ¬ (acc.any (fun q => q.1 == p.1)) = true := by
      intro hcontra
      obtain ⟨q, hq, hq1⟩ := List.any_eq_true.mp hcontra
      rw [List.map_append, List.nodup_append] at h
      have hqk : q.1 ∈ acc.map Prod.fst := List.mem_map.mpr ⟨q, hq, rfl⟩
      have hpk : q.1 ∈ (p :: ps).map Prod.fst := by
        rw [beq_iff_eq.mp hq1]
        exact List.mem_map.mpr ⟨p, List.mem_cons_self p ps, rfl⟩
      exact h.2.2 hqk hpk
    rw [dedupStep_not_mem acc p hnot]
    have hih := ih (acc ++ [p]) (by rw [List.append_assoc, List.singleton_append]; exact h)
    rw [hih, List.append_assoc, List.singleton_append]

theorem foldl_dedupStep_subset (ps : List (List Char × List Char)) :
    ∀ acc x, x ∈ ps.foldl dedupStep acc → x ∈ acc ∨ x ∈ ps := by
  induction ps with
  | nil => intro acc x h; exact Or.inl h
  | cons p ps ih =>
    intro acc x h
    rw [List.foldl_cons] at h
    rcases ih (dedupStep acc p) x h with hacc | hps
    · by_cases hany : (acc.any (fun q => q.1 == p.1)) = true
      · rw [dedupStep_mem acc p hany] at hacc
        exact Or.inl hacc
      · rw [dedupStep_not_mem acc p hany] at hacc
        rcases List.mem_append.mp hacc with h1 | h2
        · exact Or.inl h1
        · rw [List.mem_singleton] at h2
          subst h2
          exact Or.inr (List.mem_cons_self x ps)
    · exact Or.inr (List.mem_cons_of_mem p hps)

end NLM

namespace NLM

theorem fixPairs_spec (s : List Char) :
    ∀ q ∈ fixPairs s, '=' ∉ q.1 ∧ hasSep q.1 = false ∧ hasSep q.2 = false := by
  intro q hq
  have hq' : q ∈ (splitSemi s).map parsePair :=
    (foldl_dedupStep_subset _ [] q hq).resolve_left (List.not_mem_nil q)
  obtain ⟨x, hx, hxq⟩ := List.mem_map.mp hq'
  have hxs : hasSep x = false := mem_splitSemi_noSep s x hx
  subst hxq
  exact ⟨parsePair_fst_no_eq x, (parsePair_noSep x hxs).1, (parsePair_noSep x hxs).2⟩

theorem fixChars_idem (s : List Char) : fixChars (fixChars s) = fixChars s := by
  have hspec := fixPairs_spec s
  have hno : ∀ r ∈ (fixPairs s).map renderPair, hasSep r = false := by
    intro r hr
    obtain ⟨q, hq, hqr⟩ := List.mem_map.mp hr
    obtain ⟨n, v⟩ := q
    subst hqr
    exact hasSep_render n v (hspec (n, v) hq).2.1 (hspec (n, v) hq).2.2
  have hne : (fixPairs s).map renderPair ≠ [] := by
    have h2 : (splitSemi s).map parsePair ≠ [] := by
      intro hc
      exact splitSemi_ne_nil s (List.map_eq_nil_iff.mp hc)
    intro hc
    exact dedupFirst_ne_nil _ h2 (List.map_eq_nil_iff.mp hc)
  have hsplit : splitSemi (fixChars s) = (fixPairs s).map renderPair :=
    splitSemi_joinSemi _ hne hno
  have hparse : (splitSemi (fixChars s)).map parsePair = fixPairs s := by
    rw [hsplit, List.map_map]
    have hcongr : ((fixPairs s).map (parsePair ∘ renderPair)) = (fixPairs s).map id :=
      List.map_congr_left (fun q hq => parsePair_render_id q (hspec q hq).1)
    rw [hcongr, List.map_id]
  have hfp : fixPairs (fixChars s) = fixPairs s := by
    have h0 : fixPairs (fixChars s) = dedupFirst (fixPairs s) := by
      show dedupFirst ((splitSemi (fixChars s)).map parsePair) = dedupFirst (fixPairs s)
      rw [hparse]
    rw [h0]
    show (fixPairs s).foldl dedupStep [] = fixPairs s
    have hnodup : ((([] : List (List Char × List Char)) ++ fixPairs s).map Prod.fst).Nodup := by
      simpa using dedupFirst_keys_nodup ((splitSemi s).map parsePair)
    simpa using foldl_dedupStep_eq (fixPairs s) [] hnodup
  show joinSemi ((fixPairs (fixChars s)).map renderPair) = fixChars s
  rw [hfp]
  rfl

theorem fixChars_distinct (s : List Char)
    (h1 : ∀ p ∈ splitSemi s, '=' ∈ p)
    (h2 : ((splitSemi s).map (fun p => (parsePair p).1)).Nodup) :
    fixChars s = s ∧ (fixPairs s).length = (splitSemi s).length := by
  have hkeys : ((((splitSemi s).map parsePair).map Prod.fst)).Nodup := by
    rw [List.map_map]
    exact h2
  have hded : fixPairs s = (splitSemi s).map parsePair := by
    show ((splitSemi s).map parsePair).foldl dedupStep [] = (splitSemi s).map parsePair
    simpa using foldl_dedupStep_eq ((splitSemi s).map parsePair) [] (by simpa using hkeys)
  constructor
  · show joinSemi ((fixPairs s).map renderPair) = s
    rw [hded, List.map_map]
    have hcongr : ((splitSemi s).map (renderPair ∘ parsePair)) = (splitSemi s).map id :=
      List.map_congr_left (fun p hp => renderPair_parsePair p (h1 p hp))
    rw [hcongr, List.map_id]
    exact joinSemi_splitSemi s
  · rw [hded, List.length_map]

/-- C10: the `fix-cookies.ts` dedup is idempotent. On a cookie string whose
`name=value` pairs (each containing `=`) already have pairwise-distinct
names, it returns the string unchanged (same pair sequence, same order)
and Before equals After; and on every input, applying the dedup twice
yields the same string as applying it once. -/
theorem claim_c10 :
    (∀ s : String, (∀ p ∈ splitSemi s.data, '=' ∈ p) →
      ((splitSemi s.data).map (fun p => (parsePair p).1)).Nodup →
      fixCookies s = s ∧ beforeCount s = afterCount s) ∧
    (∀ s : String, fixCookies (fixCookies s) = fixCookies s) := by
  constructor
  · intro s h1 h2
    obtain ⟨hfix, hlen⟩ := fixChars_distinct s.data h1 h2
    constructor
    · show (⟨fixChars s.data⟩ : String) = s
      rw [hfix]
    · show (splitSemi s.data).length = (fixPairs s.data).length
      exact hlen.symm
  · intro s
    show (⟨fixChars (fixCookies s).data⟩ : String) = (⟨fixChars s.data⟩ : String)
    have hdata : (fixCookies s).data = fixChars s.data := rfl
    rw [hdata, fixChars_idem]

theorem claim_c10_witness :
    fixCookies "SID=1; HSID=x" = "SID=1; HSID=x" ∧
    beforeCount "SID=1; HSID=x" = afterCount "SID=1; HSID=x" :=
  claim_c10.1 "SID=1; HSID=x" (by decide) (by decide)

theorem cookieString_roundtrip (L : List (String × String)) (hLne : L ≠ [])
    (hLok : ∀ p ∈ L, hasSep p.1.data = false ∧ hasSep p.2.data = false ∧ '=' ∉ p.1.data) :
    (splitSemi (joinSemi (L.map (fun p => p.1.data ++ '=' :: p.2.data)))).map parsePair =
      L.map (fun p => (p.1.data, p.2.data)) := by
  have hmm : L.map (fun p => p.1.data ++ '=' :: p.2.data)
      = (L.map (fun p => ((p.1.data : List Char), (p.2.data : List Char)))).map renderPair := by
    rw [List.map_map]
    exact List.map_congr_left (fun a _ => rfl)
  rw [hmm]
  have hne2 : (L.map (fun p => ((p.1.data : List Char), (p.2.data : List Char)))).map renderPair ≠ [] := by
    intro hc
    exact hLne (List.map_eq_nil_iff.mp (List.map_eq_nil_iff.mp hc))
  have hall : ∀ r ∈ (L.map (fun p => ((p.1.data : List Char), (p.2.data : List Char)))).map renderPair,
      hasSep r = false := by
    intro r hr
    obtain ⟨q, hq, hqr⟩ := List.mem_map.mp hr
    obtain ⟨p, hp, hpq⟩ := List.mem_map.mp hq
    subst hqr
    subst hpq
    exact hasSep_render _ _ (hLok p hp).1 (hLok p hp).2.1
  rw [splitSemi_joinSemi _ hne2 hall, List.map_map]
  have hcongr : (L.map (fun p => ((p.1.data : List Char), (p.2.data : List Char)))).map
        (parsePair ∘ renderPair)
      = (L.map (fun p => ((p.1.data : List Char), (p.2.data : List Char)))).map id := by
    apply List.map_congr_left
    intro q hq
    obtain ⟨p, hp, hpq⟩ := List.mem_map.mp hq
    exact parsePair_render_id q (by rw [← hpq]; exact (hLok p hp).2.2)
  rw [hcongr, List.map_id]

/-- C9: the record persisted by `runAuthentication` has exactly the shape
`{ cookies, updatedAt }`: `updatedAt` is the ISO timestamp taken at save
time, and `cookies` is the single string obtained by joining one
`name=value` render per dedup-map entry with `"; "` — so that (for cookie
names and values free of the separator, names free of `=`) splitting the
persisted string recovers exactly the map's entries. -/
theorem claim_c9 (jarPairs : List (String × String)) (now : String)
    (hne : buildCookieMap jarPairs ≠ [])
    (hok : ∀ p ∈ buildCookieMap jarPairs,
      hasSep p.1.data = false ∧ hasSep p.2.data = false ∧ '=' ∉ p.1.data) :
    (finishAuthentication jarPairs now).saved.updatedAt = now ∧
    (finishAuthentication jarPairs now).saved.cookies.data =
      joinSemi ((buildCookieMap jarPairs).map (fun p => p.1.data ++ '=' :: p.2.data)) ∧
    (splitSemi (finishAuthentication jarPairs now).saved.cookies.data).map parsePair =
      (buildCookieMap jarPairs).map (fun p => (p.1.data, p.2.data)) := by
  refine ⟨rfl, rfl, ?_⟩
  show (splitSemi (joinSemi ((buildCookieMap jarPairs).map
      (fun p => p.1.data ++ '=' :: p.2.data)))).map parsePair = _
  exact cookieString_roundtrip (buildCookieMap jarPairs) hne hok

theorem claim_c9_witness :
    (finishAuthentication [("SID", "a"), ("HSID", "b")] "2026-01-01T00:00:00.000Z").saved.updatedAt
      = "2026-01-01T00:00:00.000Z" ∧
    (finishAuthentication [("SID", "a"), ("HSID", "b")] "2026-01-01T00:00:00.000Z").saved.cookies.data
      = joinSemi ((buildCookieMap [("SID", "a"), ("HSID", "b")]).map
          (fun p => p.1.data ++ '=' :: p.2.data)) ∧
    (splitSemi (finishAuthentication [("SID", "a"), ("HSID", "b")]
        "2026-01-01T00:00:00.000Z").saved.cookies.data).map parsePair
      = (buildCookieMap [("SID", "a"), ("HSID", "b")]).map (fun p => (p.1.data, p.2.data)) :=
  claim_c9 [("SID", "a"), ("HSID", "b")] "2026-01-01T00:00:00.000Z" (by decide) (by decide)

end NLM
